import Mathlib

/-!
Verification of the teach-honcho conversation-export pipeline.

This file shallowly embeds the core logic of the repository:

* the Sanitizer (`src/utils/extractMessages.ts`, `extractVisibleMessages`)
  including its five-step regex text-cleanup pipeline, modelled over
  `List Char`;
* the format detector / normalizer (`src/core/chatProcessor.ts`,
  `processChatData`);
* the cleaned-file writer (`src/file-ops` `cleanChatFile`) together with a
  faithful model of `JSON.stringify(value, null, 2)`;
* the batch runner (`src/file-ops/batchProcessor.ts`, `getBatchFiles` and
  `processBatch`);
* the delivery guard (`src/core/honchoClient.ts`, `uploadMessagesToHoncho`);
* the per-item retry loop (`src/hooks/useUploadQueue.ts`, `processJob`).

Theorems at the end settle the frozen claims about this code.
-/

namespace TeachHoncho

/-! ### Text cleanup pipeline (extractMessages.ts lines 73-87)

Each JS regex replacement is embedded as a left-to-right scan over the
character list of the string, matching the semantics of
`String.prototype.replace` with a global regex: at each position the engine
tries to match; on success the match is replaced and scanning resumes after
the replacement; on failure scanning advances one character. -/

/-- `text.replace(/\\\\n/g, "\n")`: the regex literal `\\\\n` matches the
three-character sequence backslash, backslash, `n`, replaced by a newline. -/
def unescapeBackslashN : List Char → List Char
  | '\\' :: '\\' :: 'n' :: rest => '\n' :: unescapeBackslashN rest
  | c :: rest => c :: unescapeBackslashN rest
  | [] => []

/-- Wrapper glyphs `[-]` that open/close inline citation or tool
artifacts. -/
def isWrapper (c : Char) : Bool :=
  0xE200 ≤ c.toNat && c.toNat ≤ 0xE202

/-- Characters excluded by the character class `[^\\n\\r]` of the wrapper
regex.  In a JS regex literal `\\` is an escaped backslash, so the class
excludes the backslash, the letter `n` and the letter `r` (not newline or
carriage return). -/
def isWrapperExcluded (c : Char) : Bool :=
  c = '\\' || c = 'n' || c = 'r'

/-- Search for the closing wrapper glyph of a lazy match
`[-][^\\n\\r]*?[-]`: returns the suffix after the
first wrapper glyph reachable without crossing an excluded character. -/
def findCloser : List Char → Option (List Char)
  | [] => none
  | c :: rest =>
    if isWrapper c then some rest
    else if isWrapperExcluded c then none
    else findCloser rest

theorem findCloser_length_le :
    ∀ l rest, findCloser l = some rest → rest.length ≤ l.length := by
  intro l
  induction l with
  | nil => intro rest h; simp [findCloser] at h
  | cons c cs ih =>
    intro rest h
    simp only [findCloser] at h
    split at h
    · cases h; simp
    · split at h
      · cases h
      · exact Nat.le_trans (ih rest h) (Nat.le_succ _)

/-- `text.replace(/[-][^\\n\\r]*?[-]/g, "")`:
remove each lazily-matched wrapper pair together with everything between. -/
def stripWrappersF : Nat → List Char → List Char
  | _, [] => []
  | 0, l => l
  | fuel + 1, c :: rest =>
    if isWrapper c then
      match findCloser rest with
      | some rest' => stripWrappersF fuel rest'
      | none => c :: stripWrappersF fuel rest
    else c :: stripWrappersF fuel rest

/-- The wrapper-pair removal: the scan above run with fuel equal to the
length of the list, which the fuel-irrelevance lemma below shows is
always sufficient. -/
def stripWrappers (l : List Char) : List Char :=
  stripWrappersF l.length l

theorem stripWrappersF_irrel :
    ∀ f1 f2 l, l.length ≤ f1 → l.length ≤ f2 →
      stripWrappersF f1 l = stripWrappersF f2 l := by
  intro f1
  induction f1 with
  | zero =>
    intro f2 l h1 _
    cases l with
    | nil => cases f2 <;> rfl
    | cons c rest => simp at h1
  | succ f ih =>
    intro f2 l h1 h2
    cases l with
    | nil => cases f2 <;> rfl
    | cons c rest =>
      cases f2 with
      | zero => simp at h2
      | succ f' =>
        simp only [stripWrappersF]
        have hr : rest.length ≤ f := by simpa using h1
        have hr' : rest.length ≤ f' := by simpa using h2
        by_cases hw : isWrapper c
        · simp only [hw, if_true]
          cases hc : findCloser rest with
          | some rest' =>
            have := findCloser_length_le rest rest' hc
            exact ih f' rest' (by omega) (by omega)
          | none => rw [ih f' rest hr hr']
        · simp only [hw, Bool.false_eq_true, if_false]
          rw [ih f' rest hr hr']

theorem stripWrappers_nil : stripWrappers [] = [] := rfl

theorem stripWrappers_cons (c : Char) (rest : List Char) :
    stripWrappers (c :: rest) =
      if isWrapper c then
        match findCloser rest with
        | some rest2 => stripWrappers rest2
        | none => c :: stripWrappers rest
      else c :: stripWrappers rest := by
  show stripWrappersF (rest.length + 1) (c :: rest) = _
  simp only [stripWrappersF]
  by_cases hw : isWrapper c
  · simp only [hw, if_true]
    cases hc : findCloser rest with
    | some rest2 =>
      have hle := findCloser_length_le rest rest2 hc
      exact stripWrappersF_irrel rest.length rest2.length rest2 hle
        (Nat.le_refl _)
    | none => rfl
  · simp only [hw, Bool.false_eq_true, if_false]
    rfl

/-- Private-use code points `[-]`. -/
def isPUA (c : Char) : Bool :=
  0xE200 ≤ c.toNat && c.toNat ≤ 0xE206

/-- `text.replace(/[-]/g, "")`. -/
def stripPUA (l : List Char) : List Char :=
  l.filter (fun c => !isPUA c)

/-- Case-insensitive character comparison against a lowercase letter. -/
def charLowerEq (c target : Char) : Bool :=
  c.toLower = target

/-- Match the fixed word `w` (given lowercase) case-insensitively at the
head of `l`, returning the remainder. -/
def matchWordCI : List Char → List Char → Option (List Char)
  | [], l => some l
  | _ :: _, [] => none
  | w :: ws, c :: cs => if charLowerEq c w then matchWordCI ws cs else none

/-- Consume one-or-more decimal digits (`\d+`, greedy), returning the
remainder; fails when the head is not a digit. -/
def matchDigits : List Char → Option (List Char)
  | c :: cs =>
    if c.isDigit then
      some (cs.dropWhile Char.isDigit)
    else none
  | [] => none

/-- Match `turn\d+search\d+` (case-insensitive) at the head of `l`. -/
def matchTurnSearch (l : List Char) : Option (List Char) :=
  (matchWordCI ['t', 'u', 'r', 'n'] l).bind fun l1 =>
  (matchDigits l1).bind fun l2 =>
  (matchWordCI ['s', 'e', 'a', 'r', 'c', 'h'] l2).bind fun l3 =>
  matchDigits l3

/-- Match `(?:cite)?turn\d+search\d+` (case-insensitive) at the head of
`l`: the greedy optional group first tries to consume `cite`, and on
failure of the tail backtracks to the bare `turn...` match. -/
def matchCitationAt (l : List Char) : Option (List Char) :=
  match matchWordCI ['c', 'i', 't', 'e'] l with
  | some l1 =>
    match matchTurnSearch l1 with
    | some rest => some rest
    | none => matchTurnSearch l
  | none => matchTurnSearch l

theorem matchWordCI_length_le :
    ∀ w l rest, matchWordCI w l = some rest → rest.length ≤ l.length := by
  intro w
  induction w with
  | nil => intro l rest h; simp [matchWordCI] at h; simp [h]
  | cons c cs ih =>
    intro l rest h
    cases l with
    | nil => simp [matchWordCI] at h
    | cons d ds =>
      simp only [matchWordCI] at h
      split at h
      · exact Nat.le_trans (ih ds rest h) (Nat.le_succ _)
      · cases h

theorem length_dropWhile_le' (p : Char → Bool) :
    ∀ l : List Char, (l.dropWhile p).length ≤ l.length := by
  intro l
  induction l with
  | nil => simp
  | cons c cs ih =>
    by_cases h : p c
    · simp only [List.dropWhile, h]
      exact Nat.le_trans ih (Nat.le_succ _)
    · simp [List.dropWhile, h]

theorem matchDigits_length_lt :
    ∀ l rest, matchDigits l = some rest → rest.length < l.length := by
  intro l rest h
  cases l with
  | nil => simp [matchDigits] at h
  | cons c cs =>
    simp only [matchDigits] at h
    split at h
    · cases h
      exact Nat.lt_succ_of_le (length_dropWhile_le' _ _)
    · cases h

theorem matchTurnSearch_length_lt :
    ∀ l rest, matchTurnSearch l = some rest → rest.length < l.length := by
  intro l rest h
  simp only [matchTurnSearch, Option.bind_eq_some] at h
  obtain ⟨l1, h1, l2, h2, l3, h3, h4⟩ := h
  calc rest.length < l3.length := matchDigits_length_lt _ _ h4
    _ ≤ l2.length := matchWordCI_length_le _ _ _ h3
    _ < l1.length := matchDigits_length_lt _ _ h2
    _ ≤ l.length := matchWordCI_length_le _ _ _ h1

theorem matchCitationAt_length_lt :
    ∀ l rest, matchCitationAt l = some rest → rest.length < l.length := by
  intro l rest h
  simp only [matchCitationAt] at h
  split at h
  · rename_i l1 h1
    split at h
    · rename_i r hr
      cases h
      calc rest.length < l1.length := matchTurnSearch_length_lt _ _ hr
        _ ≤ l.length := matchWordCI_length_le _ _ _ h1
    · exact matchTurnSearch_length_lt _ _ h
  · exact matchTurnSearch_length_lt _ _ h

/-- `text.replace(/(?:cite)?turn\d+search\d+/gi, "")`. -/
def stripCitationsF : Nat → List Char → List Char
  | _, [] => []
  | 0, l => l
  | fuel + 1, c :: rest =>
    match matchCitationAt (c :: rest) with
    | some rest' => stripCitationsF fuel rest'
    | none => c :: stripCitationsF fuel rest

/-- The citation-marker removal: the scan above run with fuel equal to
the length of the list, always sufficient by the fuel-irrelevance lemma
below. -/
def stripCitations (l : List Char) : List Char :=
  stripCitationsF l.length l

theorem stripCitationsF_irrel :
    ∀ f1 f2 l, l.length ≤ f1 → l.length ≤ f2 →
      stripCitationsF f1 l = stripCitationsF f2 l := by
  intro f1
  induction f1 with
  | zero =>
    intro f2 l h1 _
    cases l with
    | nil => cases f2 <;> rfl
    | cons c rest => simp at h1
  | succ f ih =>
    intro f2 l h1 h2
    cases l with
    | nil => cases f2 <;> rfl
    | cons c rest =>
      cases f2 with
      | zero => simp at h2
      | succ f2' =>
        simp only [stripCitationsF]
        have hr : rest.length ≤ f := by simpa using h1
        have hr2 : rest.length ≤ f2' := by simpa using h2
        cases hc : matchCitationAt (c :: rest) with
        | some rest' =>
          have := matchCitationAt_length_lt (c :: rest) rest' hc
          exact ih f2' rest' (by simp at this; omega) (by simp at this; omega)
        | none => rw [ih f2' rest hr hr2]

theorem stripCitations_nil : stripCitations [] = [] := rfl

theorem stripCitations_cons (c : Char) (rest : List Char) :
    stripCitations (c :: rest) =
      match matchCitationAt (c :: rest) with
      | some rest2 => stripCitations rest2
      | none => c :: stripCitations rest := by
  show stripCitationsF (rest.length + 1) (c :: rest) = _
  simp only [stripCitationsF]
  cases hc : matchCitationAt (c :: rest) with
  | some rest2 =>
    have := matchCitationAt_length_lt (c :: rest) rest2 hc
    exact stripCitationsF_irrel rest.length rest2.length rest2
      (by simp at this; omega) (Nat.le_refl _)
  | none => rfl

/-- `text.replace(/ {2,}/g, " ")`: collapse each maximal run of two or
more ASCII spaces to a single space (a space followed by another space is
dropped; all other characters are kept). -/
def collapseSpaces : List Char → List Char
  | [] => []
  | c :: rest =>
    match c, rest with
    | ' ', ' ' :: _ => collapseSpaces rest
    | _, _ => c :: collapseSpaces rest

/-- The whitespace set of `String.prototype.trim` (WhiteSpace plus
LineTerminator code points). -/
def isJsWhitespace (c : Char) : Bool :=
  c = ' ' || c = '\t' || c = '\n' || c = '\r' ||
  c.toNat = 0x0B || c.toNat = 0x0C || c.toNat = 0xA0 || c.toNat = 0xFEFF ||
  c.toNat = 0x1680 || (0x2000 ≤ c.toNat && c.toNat ≤ 0x200A) ||
  c.toNat = 0x2028 || c.toNat = 0x2029 || c.toNat = 0x202F ||
  c.toNat = 0x205F || c.toNat = 0x3000

/-- Remove trailing JS whitespace. -/
def trimEnd : List Char → List Char
  | [] => []
  | c :: rest =>
    match trimEnd rest with
    | [] => if isJsWhitespace c then [] else [c]
    | r => c :: r

/-- `text.trim()`. -/
def jsTrim (l : List Char) : List Char :=
  trimEnd (l.dropWhile isJsWhitespace)

/-- The full cleanup pipeline of extractMessages.ts lines 73-87, applied to
the character list of the extracted text. -/
def cleanChars (l : List Char) : List Char :=
  jsTrim (collapseSpaces (stripCitations (stripPUA (stripWrappers
    (unescapeBackslashN l)))))

/-- The cleanup pipeline on strings. -/
def cleanText (s : String) : String :=
  String.mk (cleanChars s.data)

/-! ### Sanitizer data model (extractMessages.ts lines 1-19)

The `ChatJSON` interface of extractMessages.ts, with TS optional fields as
`Option` and the `mapping` record flattened to its value list (the source
iterates `Object.values(json.mapping)`). -/

/-- `author?: { role?: string }`. -/
structure RawAuthor where
  role : Option String
  deriving DecidableEq, Repr

/-- `content?: { parts?: string[]; text?: string }`. -/
structure RawContent where
  parts : Option (List String)
  text : Option String
  deriving DecidableEq, Repr

/-- The two historical spellings of the hidden-from-conversation metadata
flag; `some true` models a key present and strictly equal (`===`) to
`true`, any other value of the key behaves like `some false`. -/
structure RawMetadata where
  is_visually_hidden_from_conversation : Option Bool
  isVisuallyHiddenFromConversation : Option Bool
  deriving DecidableEq, Repr

/-- The `message` payload of one mapping node. -/
structure RawMessage where
  author : Option RawAuthor
  create_time : Option Int
  content : Option RawContent
  metadata : Option RawMetadata
  recipient : Option String
  deriving DecidableEq, Repr

/-- One value of the `mapping` record. -/
structure MappingNode where
  message : Option RawMessage
  deriving DecidableEq, Repr

/-- The node graph: `Object.values(json.mapping)` in iteration order. -/
structure ChatJSON where
  mapping : List MappingNode
  deriving DecidableEq, Repr

/-- An output message `{ author: string, content: string }`. -/
structure Message where
  author : String
  content : String
  deriving DecidableEq, Repr

/-- A message paired with the timestamp used for the chronological sort. -/
structure TimedMessage where
  time : Int
  author : String
  content : String
  deriving DecidableEq, Repr

/-- The text extraction of extractMessages.ts lines 62-71: prefer the
`parts` array (joined with no separator), fall back to the flat `text`
field, else the empty string. -/
def rawTextOf (msg : RawMessage) : String :=
  match msg.content with
  | none => ""
  | some c =>
    match c.parts with
    | some l => String.join l
    | none =>
      match c.text with
      | some s => s
      | none => ""

/-- The hidden-from-conversation test of extractMessages.ts lines 54-60
(either metadata key spelling strictly equal to `true`). -/
def isHiddenMeta (msg : RawMessage) : Bool :=
  msg.metadata.bind RawMetadata.is_visually_hidden_from_conversation
    = some true ||
  msg.metadata.bind RawMetadata.isVisuallyHiddenFromConversation = some true

/-- The per-node filter and extraction of the loop body of
extractMessages.ts lines 43-91: drop nodes without a message, roles other
than `user`/`assistant`, `web`/`web.run` recipients, hidden assistant
messages, and messages whose raw extracted text is empty (falsy); emit the
cleaned text otherwise.  Note the emptiness test runs on the raw text,
before the cleanup pipeline. -/
def nodeExtract (node : MappingNode) : Option TimedMessage :=
  match node.message with
  | none => none
  | some msg =>
    match msg.author.bind RawAuthor.role with
    | none => none
    | some role =>
      if role ≠ "user" ∧ role ≠ "assistant" then none
      else if msg.recipient = some "web" ∨ msg.recipient = some "web.run" then
        none
      else if role = "assistant" ∧ isHiddenMeta msg then none
      else
        let text := rawTextOf msg
        if text = "" then none
        else some ⟨msg.create_time.getD 0, role, cleanText text⟩

/-- Stable insertion of a timed message into a time-sorted list, placing it
after all earlier elements with a time less than or equal to its own:
models the stable `Array.prototype.sort` with comparator
`(a, b) => a.time - b.time`. -/
def insertByTime (x : TimedMessage) : List TimedMessage → List TimedMessage
  | [] => [x]
  | y :: l => if x.time < y.time then x :: y :: l else y :: insertByTime x l

/-- Stable sort ascending by `time`. -/
def sortByTime : List TimedMessage → List TimedMessage
  | [] => []
  | x :: l => insertByTime x (sortByTime l)

/-- `extractVisibleMessages` (extractMessages.ts lines 29-97): guard
against a missing input or mapping, filter and clean each node, sort
chronologically, and drop the timestamps.  `none` models an input rejected
by the guard of lines 32-39 (null, non-object, or without an object
`mapping`). -/
def extractVisibleMessages (json : Option ChatJSON) : List Message :=
  match json with
  | none => []
  | some j =>
    (sortByTime (j.mapping.filterMap nodeExtract)).map
      (fun t => ⟨t.author, t.content⟩)

theorem mem_insertByTime (a x : TimedMessage) :
    ∀ l, a ∈ insertByTime x l ↔ a = x ∨ a ∈ l := by
  intro l
  induction l with
  | nil => simp [insertByTime]
  | cons y ys ih =>
    simp only [insertByTime]
    split
    · simp
    · simp only [List.mem_cons, ih]
      tauto

theorem mem_sortByTime (a : TimedMessage) :
    ∀ l, a ∈ sortByTime l ↔ a ∈ l := by
  intro l
  induction l with
  | nil => simp [sortByTime]
  | cons x xs ih =>
    simp [sortByTime, mem_insertByTime, ih]

/-- Inversion of `nodeExtract`: an emitted timed message comes from a node
with a message whose role is `user` or `assistant` and whose raw extracted
text is non-empty, and its content is the cleaned raw text. -/
theorem nodeExtract_inv (node : MappingNode) (t : TimedMessage)
    (h : nodeExtract node = some t) :
    ∃ msg role, node.message = some msg ∧
      msg.author.bind RawAuthor.role = some role ∧
      (role = "user" ∨ role = "assistant") ∧
      rawTextOf msg ≠ "" ∧
      t.author = role ∧ t.content = cleanText (rawTextOf msg) := by
  unfold nodeExtract at h
  split at h
  · cases h
  · rename_i msg hmsg
    split at h
    · cases h
    · rename_i role hrole
      split at h
      · cases h
      · rename_i hr
        split at h
        · cases h
        · split at h
          · cases h
          · simp only at h
            split at h
            · cases h
            · rename_i htext
              cases h
              refine ⟨msg, role, hmsg, hrole, ?_, htext, rfl, rfl⟩
              by_contra hc
              push_neg at hc
              exact hr ⟨hc.1, hc.2⟩

/-! ### Format detector / normalizer (chatProcessor.ts `processChatData`)

The current chatProcessor.ts consumes `extractVisibleMessages` through an
object-shaped result `{ messages, title, create_time }`. -/

/-- One raw conversation export unit as seen by that variant: the node
graph plus the export's optional top-level title and create-time. -/
structure ExportUnit where
  chat : ChatJSON
  title : Option String
  create_time : Option Int
  deriving DecidableEq, Repr

/-- The object-shaped extraction result consumed by chatProcessor.ts. -/
structure ExtractedRecord where
  messages : List Message
  title : Option String
  create_time : Option Int
  deriving DecidableEq, Repr

/-- Modelled from the spec: chatProcessor.ts calls a variant of
`extractVisibleMessages` returning `{ messages, title, create_time }`;
that variant is not under src/ (only its caller is).  Its message list is
the extractMessages.ts pipeline embedded above, and per the spec's
Sanitizer contract (`sanitize(graph) -> { messages: Message[], title?,
createTime? }`) the export unit's optional title and create-time pass
through; a `none` input models a value rejected by the guard. -/
def extractRecordOf (x : Option ExportUnit) : ExtractedRecord :=
  match x with
  | none => ⟨[], none, none⟩
  | some u => ⟨extractVisibleMessages (some u.chat), u.title, u.create_time⟩

/-- One element of an array input to `processChatData`, recording the two
views the source takes of it: the conversation-object view (does it have a
`mapping` property of `typeof "object"`, and if so does the Sanitizer
guard accept it) and the flat message-item view (its string-valued
`author`/`role`/`from`/`content`/`text` properties).  `notObj` models a
null or primitive element. -/
inductive ArrItem where
  | notObj
  | objItem (mappingVal : Option (Option ExportUnit))
      (author role from_ content text : Option String)
  deriving DecidableEq, Repr

/-- The dispatch test of chatProcessor.ts lines 51-56: the element is a
non-null object with a `mapping` property of `typeof "object"` (which in
JS includes `null`). -/
def isConvObject : ArrItem → Bool
  | .objItem (some _) _ _ _ _ _ => true
  | _ => false

/-- The element as the Sanitizer sees it after the `as ChatJSON` cast:
`some` exactly when the guard of extractMessages.ts lines 32-39 accepts
it. -/
def convViewOf : ArrItem → Option ExportUnit
  | .objItem (some (some u)) _ _ _ _ _ => some u
  | _ => none

/-- The message list the conversation branch obtains for one element. -/
def convMsgs (it : ArrItem) : List Message :=
  (extractRecordOf (convViewOf it)).messages

/-- `originalFormat`. -/
inductive OrigFormat where
  | array
  | chatgpt
  deriving DecidableEq, Repr

/-- `ProcessedChat`. -/
structure ProcessedChat where
  messages : List Message
  messageCount : Nat
  originalFormat : OrigFormat
  title : Option String
  create_time : Option Int
  deriving DecidableEq, Repr

/-- `data` of a `ProcessChatResult`: `ProcessedChat | ProcessedChat[]`. -/
inductive ProcData where
  | single (p : ProcessedChat)
  | multiple (l : List ProcessedChat)
  deriving DecidableEq, Repr

/-- `ProcessChatResult`. -/
structure ProcessChatResult where
  success : Bool
  message : String
  data : Option ProcData
  deriving DecidableEq, Repr

/-- The mapping of one flat array element (chatProcessor.ts lines 86-120):
try `author`+`content`, then `role`+`content`, then `from`+`text`; throw on
a non-object element or when no shape matches.  The thrown
missing-properties message enumerates the item's keys in the source; the
key list is not tracked by this model. -/
def mapFlatItem : ArrItem → Except String Message
  | .notObj => .error "Invalid message item in array"
  | .objItem _ author role from_ content text =>
    match author, content with
    | some a, some c => .ok ⟨a, c⟩
    | _, _ =>
      match role, content with
      | some r, some c => .ok ⟨r, c⟩
      | _, _ =>
        match from_, text with
        | some f, some t => .ok ⟨f, t⟩
        | _, _ => .error "Message item missing required properties."

/-- The input of `processChatData`: a JSON array or any non-array value
(the latter fed to the Sanitizer directly, `none` when the guard rejects
it). -/
inductive ChatDataInput where
  | arrData (items : List ArrItem)
  | singleData (conv : Option ExportUnit)
  deriving DecidableEq, Repr

/-- The loop body of the conversation-array branch (chatProcessor.ts
lines 59-70): extract one element, keep it as a `ProcessedChat` when it
yields at least one message. -/
def convResultOf (chatObject : ArrItem) : Option ProcessedChat :=
  let extracted := extractRecordOf (convViewOf chatObject)
  if extracted.messages.length > 0 then
    some ⟨extracted.messages, extracted.messages.length, .chatgpt,
      extracted.title, extracted.create_time⟩
  else none

/-- `processChatData` (chatProcessor.ts lines 39-156). -/
def processChatData (jsonData : ChatDataInput) : ProcessChatResult :=
  match jsonData with
  | .arrData items =>
    if (items.head?.map isConvObject).getD false then
      let conversationResults : List ProcessedChat :=
        items.filterMap convResultOf
      if conversationResults.length = 0 then
        ⟨false, "No messages found in any conversations", none⟩
      else
        ⟨true, "Successfully processed " ++
            toString conversationResults.length ++ " conversations with " ++
            toString (conversationResults.map ProcessedChat.messageCount).sum
            ++ " total messages",
          some (.multiple conversationResults)⟩
    else
      match items.mapM mapFlatItem with
      | .error e => ⟨false, "Failed to process chat data: " ++ e, none⟩
      | .ok messages =>
        if messages.length = 0 then
          ⟨false, "No messages found in the data", none⟩
        else
          ⟨true, "Successfully processed " ++ toString messages.length ++
              " messages",
            some (.single ⟨messages, messages.length, .array, none, none⟩)⟩
  | .singleData conv =>
    let extracted := extractRecordOf conv
    if extracted.messages.length = 0 then
      ⟨false, "No messages found in the data", none⟩
    else
      ⟨true, "Successfully processed " ++ toString extracted.messages.length
          ++ " messages",
        some (.single ⟨extracted.messages, extracted.messages.length,
          .chatgpt, extracted.title, extracted.create_time⟩)⟩

/-! ### JSON serialization (`JSON.stringify(value, null, 2)`)

A faithful model of the serializer for the values the cleaner writes:
object keys in insertion order, entries indented two spaces per depth
level, strings escaped as `JSON.stringify` escapes them. -/

/-- A JSON value. -/
inductive Json where
  | null
  | bool (b : Bool)
  | num (n : Int)
  | str (s : String)
  | arr (items : List Json)
  | obj (fields : List (String × Json))

/-- Lowercase hexadecimal digit. -/
def hexDigit (n : Nat) : Char :=
  if n < 10 then Char.ofNat ('0'.toNat + n)
  else Char.ofNat ('a'.toNat + (n - 10))

/-- Four-digit lowercase hexadecimal rendering of a code point. -/
def hex4 (n : Nat) : String :=
  String.mk [hexDigit (n / 4096 % 16), hexDigit (n / 256 % 16),
    hexDigit (n / 16 % 16), hexDigit (n % 16)]

/-- String-character escaping of `JSON.stringify`. -/
def jsonEscapeChar (c : Char) : String :=
  if c = '"' then "\\\""
  else if c = '\\' then "\\\\"
  else if c = '\n' then "\\n"
  else if c = '\r' then "\\r"
  else if c = '\t' then "\\t"
  else if c.toNat = 8 then "\\b"
  else if c.toNat = 12 then "\\f"
  else if c.toNat < 32 then "\\u" ++ hex4 c.toNat
  else String.singleton c

/-- A double-quoted JSON string literal. -/
def jsonQuote (s : String) : String :=
  "\"" ++ String.join (s.data.map jsonEscapeChar) ++ "\""

/-- The indentation at nesting depth `d` (two spaces per level). -/
def jsonIndent (d : Nat) : String :=
  String.mk (List.replicate (2 * d) ' ')

mutual

/-- `JSON.stringify(v, null, 2)` at nesting depth `d`. -/
def jsonStringify (d : Nat) : Json → String
  | .null => "null"
  | .bool b => if b then "true" else "false"
  | .num n => toString n
  | .str s => jsonQuote s
  | .arr [] => "[]"
  | .arr (x :: xs) =>
    "[\n" ++ jsonStringifyItems (d + 1) (x :: xs) ++ "\n" ++ jsonIndent d
      ++ "]"
  | .obj [] => "\x7b\x7d"
  | .obj (f :: fs) =>
    "\x7b\n" ++ jsonStringifyFields (d + 1) (f :: fs) ++ "\n" ++ jsonIndent d
      ++ "\x7d"

/-- Array entries joined by `",\n"`, each on its own indented line. -/
def jsonStringifyItems (d : Nat) : List Json → String
  | [] => ""
  | [x] => jsonIndent d ++ jsonStringify d x
  | x :: y :: rest =>
    jsonIndent d ++ jsonStringify d x ++ ",\n"
      ++ jsonStringifyItems d (y :: rest)

/-- Object entries `"key": value` joined by `",\n"`. -/
def jsonStringifyFields (d : Nat) : List (String × Json) → String
  | [] => ""
  | [(k, v)] => jsonIndent d ++ jsonQuote k ++ ": " ++ jsonStringify d v
  | (k, v) :: g :: rest =>
    jsonIndent d ++ jsonQuote k ++ ": " ++ jsonStringify d v ++ ",\n"
      ++ jsonStringifyFields d (g :: rest)

end

/-! ### Cleaned-file writer (`cleanChatFile`, file-ops/index.ts lines 29-92
of the current version)

The writer runs `processChatData`, rejects failures, arrays of
conversations and missing data, and writes
`JSON.stringify({messages, title, create_time}, null, 2)`; a key whose
value is `undefined` is omitted by `JSON.stringify`. -/

/-- `CleanChatResult`. -/
structure CleanChatResult where
  success : Bool
  message : String
  messagesCount : Option Nat
  outputPath : Option String
  deriving DecidableEq, Repr

/-- One message as serialized: `{"author": ..., "content": ...}`. -/
def msgJson (m : Message) : Json :=
  .obj [("author", .str m.author), ("content", .str m.content)]

/-- The `title` entry of the output object, omitted when undefined. -/
def titleFields : Option String → List (String × Json)
  | some t => [("title", .str t)]
  | none => []

/-- The `create_time` entry of the output object, omitted when
undefined. -/
def createTimeFields : Option Int → List (String × Json)
  | some n => [("create_time", .num n)]
  | none => []

/-- The output object `{ messages: ..., title: ..., create_time: ... }` of
cleanChatFile. -/
def cleanedOutputJson (p : ProcessedChat) : Json :=
  .obj (("messages", .arr (p.messages.map msgJson)) ::
    (titleFields p.title ++ createTimeFields p.create_time))

/-- `cleanChatFile`: returns the result record and the content written to
the output file (`none` when nothing is written). -/
def cleanChatFile (parsed : ChatDataInput) (outputPath : String) :
    CleanChatResult × Option String :=
  let processResult := processChatData parsed
  if processResult.success = false then
    (⟨false, processResult.message, none, none⟩, none)
  else
    match processResult.data with
    | some (.multiple _) =>
      (⟨false,
        "Chat cleaner cannot handle multiple conversations. Please use the batch processor.",
        none, none⟩, none)
    | some (.single p) =>
      (⟨true, "Successfully cleaned chat file", some p.messages.length,
        some outputPath⟩,
       some (jsonStringify 0 (cleanedOutputJson p)))
    | none => (⟨false, "No messages found after processing", none, none⟩,
        none)

/-! ### Batch processor (`batchProcessor.ts`)

`getBatchFiles` lists a directory, keeps `.json` entries, sorts them, and
applies an optional index window; `processBatch` drives a processor over
the selected files and aggregates a summary.  The directory listing and
its existence are inputs of the model. -/

/-- `BatchOptions` (startIndex/endIndex as JS numbers, possibly
negative). -/
structure BatchOptions where
  startIndex : Option Int
  endIndex : Option Int
  dryRun : Option Bool
  deriving DecidableEq, Repr

/-- `BatchFile`. -/
structure BatchFile where
  index : Nat
  filename : String
  path : String
  deriving DecidableEq, Repr

/-- `file.endsWith(".json")`: suffix test over the character list. -/
def strEndsWith (s pat : String) : Bool :=
  decide (pat.data.length ≤ s.data.length) &&
    s.data.drop (s.data.length - pat.data.length) == pat.data

/-- Code-unit comparison of two strings, the default
`Array.prototype.sort` comparator on filenames. -/
def charsLe : List Char → List Char → Bool
  | [], _ => true
  | _ :: _, [] => false
  | a :: as, b :: bs =>
    if a.toNat < b.toNat then true
    else if b.toNat < a.toNat then false
    else charsLe as bs

/-- Insertion into a sorted filename list. -/
def insertStr (x : String) : List String → List String
  | [] => [x]
  | y :: l => if charsLe x.data y.data then x :: y :: l else y :: insertStr x l

/-- `.sort()` on the filename list. -/
def sortStrings : List String → List String
  | [] => []
  | x :: l => insertStr x (sortStrings l)

/-- `getBatchFiles` (batchProcessor.ts lines 31-79): `dirExists` and
`entries` model the filesystem state (`existsSync` and `readdirSync`);
errors are the thrown range-validation exceptions. -/
def getBatchFiles (directory : String) (dirExists : Bool)
    (entries : List String) (options : BatchOptions) :
    Except String (List BatchFile) :=
  if !dirExists then
    .error ("Directory not found: " ++ directory)
  else
    let files := sortStrings (entries.filter (fun f => strEndsWith f ".json"))
    if files.length = 0 then .ok []
    else
      let startIdx : Int := options.startIndex.getD 0
      let endIdx : Int := options.endIndex.getD ((files.length : Int) - 1)
      if startIdx < 0 ∨ startIdx ≥ (files.length : Int) then
        .error ("Invalid start index: " ++ toString startIdx ++
          ". Must be between 0 and " ++ toString ((files.length : Int) - 1))
      else if endIdx < startIdx ∨ endIdx ≥ (files.length : Int) then
        .error ("Invalid end index: " ++ toString endIdx ++
          ". Must be between " ++ toString startIdx ++ " and " ++
          toString ((files.length : Int) - 1))
      else
        .ok ((List.range (endIdx.toNat + 1 - startIdx.toNat)).filterMap
          (fun k =>
            let i := startIdx.toNat + k
            match files.get? i with
            | some filename =>
              if filename = "" then none
              else some ⟨i, filename, directory ++ "/" ++ filename⟩
            | none => none))

/-- The value a batch processor returns for one file, as `processBatch`
inspects it: an object with optional `success` and `skipped` fields, or a
non-object value. -/
inductive ProcResult where
  | objRes (success : Option Bool) (skipped : Option Bool)
  | nonObj
  deriving DecidableEq, Repr

/-- `BatchSummary`. -/
structure BatchSummary where
  total : Nat
  success : Nat
  error : Nat
  skipped : Nat
  deriving DecidableEq, Repr

/-- `BatchResult`, extended with the list of files on which the processor
was actually invoked (in invocation order), so the dry-run frame condition
is expressible. -/
structure BatchResult where
  totalFiles : Nat
  processedFiles : List BatchFile
  results : List ProcResult
  summary : BatchSummary
  calls : List BatchFile
  deriving DecidableEq, Repr

/-- Accumulated state of the `processBatch` loop. -/
structure GoOut where
  results : List ProcResult
  success : Nat
  error : Nat
  skipped : Nat
  calls : List BatchFile
  deriving DecidableEq, Repr

/-- The loop of `processBatch` (batchProcessor.ts lines 94-125): returns
accumulated results, success, error and skip counts, and processor
invocations in order.  A throwing processor is an `Except.error`; the
thrown error is recorded as a `{success: false, message}` result
object. -/
def processBatchGo (processor : BatchFile → Except String ProcResult)
    (dryRun : Bool) : List BatchFile → GoOut
  | [] => ⟨[], 0, 0, 0, []⟩
  | file :: rest =>
    if dryRun then processBatchGo processor dryRun rest
    else
      let prev := processBatchGo processor dryRun rest
      match processor file with
      | .ok result =>
        match result with
        | .objRes success skipped =>
          if success = some false then
            ⟨result :: prev.results, prev.success, prev.error + 1,
              prev.skipped, file :: prev.calls⟩
          else if skipped = some true then
            ⟨result :: prev.results, prev.success, prev.error,
              prev.skipped + 1, file :: prev.calls⟩
          else
            ⟨result :: prev.results, prev.success + 1, prev.error,
              prev.skipped, file :: prev.calls⟩
        | .nonObj =>
          ⟨result :: prev.results, prev.success + 1, prev.error,
            prev.skipped, file :: prev.calls⟩
      | .error _ =>
        ⟨ProcResult.objRes (some false) none :: prev.results, prev.success,
          prev.error + 1, prev.skipped, file :: prev.calls⟩

/-- `processBatch` (batchProcessor.ts lines 84-138). -/
def processBatch (files : List BatchFile)
    (processor : BatchFile → Except String ProcResult) (dryRun : Bool) :
    BatchResult :=
  let go := processBatchGo processor dryRun files
  { totalFiles := files.length
    processedFiles := files
    results := go.results
    summary := ⟨files.length, go.success, go.error, go.skipped⟩
    calls := go.calls }

/-! ### Delivery client guard (`honchoClient.ts`,
`uploadMessagesToHoncho`)

The remote store is an external collaborator; the model records the
operations the function performs against it as a trace, and takes the
outcomes of the two awaited calls as oracle inputs. -/

/-- One operation against the Honcho client or store. -/
inductive HonchoOp where
  | initClient (workspaceId : String) (environment : String)
  | openSession (sessionId : String)
  | makePeer (author : String)
  | addPeers (count : Nat)
  | addMessages (count : Nat)
  deriving DecidableEq, Repr

/-- `UploadMessagesResult`. -/
structure UploadMessagesResult where
  success : Bool
  message : String
  sessionId : Option String
  messagesCount : Option Nat
  uniqueAuthors : Option (List String)
  deriving DecidableEq, Repr

/-- `[...new Set(xs)]`: deduplication keeping first occurrences in
insertion order. -/
def dedupFirstAux (seen : List String) : List String → List String
  | [] => []
  | x :: rest =>
    if seen.contains x then dedupFirstAux seen rest
    else x :: dedupFirstAux (x :: seen) rest

/-- `[...new Set(xs)]`, starting from an empty set. -/
def dedupFirst (l : List String) : List String :=
  dedupFirstAux [] l

/-- `uploadMessagesToHoncho` (honchoClient.ts lines 31-91): `messages` is
`none` when the option is absent; `generatedSessionId` models the
`Date.now()`/`Math.random()` fallback id; `addPeersOutcome` and
`addMessagesOutcome` are the outcomes of the two awaited store calls.
Returns the result and the operation trace. -/
def uploadMessagesToHoncho (messages : Option (List Message))
    (sessionId : Option String) (workspaceId : Option String)
    (environment : Option String) (generatedSessionId : String)
    (addPeersOutcome : Except String Unit)
    (addMessagesOutcome : Except String Unit) :
    UploadMessagesResult × List HonchoOp :=
  match messages with
  | none => (⟨false, "No messages provided", none, none, none⟩, [])
  | some ms =>
    if ms.length = 0 then
      (⟨false, "No messages provided", none, none, none⟩, [])
    else
      let ws := workspaceId.getD "teach-honcho"
      let env := environment.getD "production"
      let sid := sessionId.getD generatedSessionId
      let uniqueAuthors := dedupFirst (ms.map Message.author)
      let tracePeers := [HonchoOp.initClient ws env, HonchoOp.openSession sid]
        ++ uniqueAuthors.map HonchoOp.makePeer
        ++ [HonchoOp.addPeers uniqueAuthors.length]
      match addPeersOutcome with
      | .error e =>
        (⟨false, "Upload failed: " ++ e, none, none, none⟩, tracePeers)
      | .ok _ =>
        let trace := tracePeers ++ [HonchoOp.addMessages ms.length]
        match addMessagesOutcome with
        | .error e =>
          (⟨false, "Upload failed: " ++ e, none, none, none⟩, trace)
        | .ok _ =>
          (⟨true,
            "Successfully uploaded " ++ toString ms.length ++
              " messages to Honcho",
            some sid, some ms.length, some uniqueAuthors⟩, trace)

/-! ### Upload queue retry loop (`useUploadQueue.ts`, `processJob`)

One queue item is processed by an upload attempt followed by up to
`maxRetries` recursive retries with exponential backoff.  `succeeds r`
tells whether the attempt made with `retryCount = r` succeeds; the model
returns the job's final reducer state (status and retryCount), the number
of attempts performed, and the backoff delays awaited in order. -/

/-- Final job status values reachable from `processJob`. -/
inductive JobStatus where
  | completed
  | failed
  deriving DecidableEq, Repr

/-- The observable outcome of `processJob` for one job. -/
structure JobOutcome where
  status : JobStatus
  retryCount : Nat
  attempts : Nat
  delays : List Nat
  deriving DecidableEq, Repr

/-- `processJob` (useUploadQueue.ts lines 179-239): an attempt with the
current `retryCount`; on failure with `retryCount < maxRetries` the job is
marked `retrying` with `retryCount + 1`, the runner awaits
`min(1000 * 2 ** retryCount, 10000)` milliseconds and recurses with the
incremented count; otherwise the job is marked `failed`.  On success the
job is marked `completed` and keeps the `retryCount` the reducer last
set. -/
def processJob (succeeds : Nat → Bool) (retryCount maxRetries : Nat) :
    JobOutcome :=
  if succeeds retryCount then
    ⟨.completed, retryCount, 1, []⟩
  else if retryCount < maxRetries then
    let rest := processJob succeeds (retryCount + 1) maxRetries
    ⟨rest.status, rest.retryCount, rest.attempts + 1,
      min (1000 * 2 ^ retryCount) 10000 :: rest.delays⟩
  else
    ⟨.failed, retryCount, 1, []⟩
  termination_by maxRetries + 1 - retryCount

/-! ### Helper lemmas for the batch processor -/

theorem processBatchGo_counts
    (processor : BatchFile → Except String ProcResult) :
    ∀ files, (processBatchGo processor false files).success +
      (processBatchGo processor false files).skipped +
      (processBatchGo processor false files).error = files.length := by
  intro files
  induction files with
  | nil => simp [processBatchGo]
  | cons f rest ih =>
    cases hp : processor f with
    | error e =>
      simp only [processBatchGo, hp, Bool.false_eq_true, if_false,
        List.length_cons]
      omega
    | ok r =>
      cases r with
      | nonObj =>
        simp only [processBatchGo, hp, Bool.false_eq_true, if_false,
          List.length_cons]
        omega
      | objRes su sk =>
        by_cases h1 : su = some false
        · simp only [processBatchGo, hp, h1, Bool.false_eq_true, if_false,
            if_true, List.length_cons]
          omega
        · by_cases h2 : sk = some true
          · simp only [processBatchGo, hp, h1, h2, Bool.false_eq_true,
              if_false, if_true, List.length_cons]
            omega
          · simp only [processBatchGo, hp, h1, h2, Bool.false_eq_true,
              if_false, List.length_cons]
            omega

theorem processBatchGo_dryRun
    (processor : BatchFile → Except String ProcResult) :
    ∀ files, processBatchGo processor true files = ⟨[], 0, 0, 0, []⟩ := by
  intro files
  induction files with
  | nil => rfl
  | cons f rest ih => simp [processBatchGo, ih]

/-! ### Helper lemmas for the retry loop -/

theorem processJob_of_true (s : Nat → Bool) (r m : Nat) (h : s r = true) :
    processJob s r m = ⟨.completed, r, 1, []⟩ := by
  rw [processJob]
  simp [h]

theorem processJob_of_retry (s : Nat → Bool) (r m : Nat) (h : s r = false)
    (hlt : r < m) :
    processJob s r m = ⟨(processJob s (r + 1) m).status,
      (processJob s (r + 1) m).retryCount,
      (processJob s (r + 1) m).attempts + 1,
      min (1000 * 2 ^ r) 10000 :: (processJob s (r + 1) m).delays⟩ := by
  rw [processJob]
  simp [h, hlt]

theorem processJob_of_exhausted (s : Nat → Bool) (r m : Nat)
    (h : s r = false) (hge : ¬r < m) :
    processJob s r m = ⟨.failed, r, 1, []⟩ := by
  rw [processJob]
  simp [h, hge]

/-! ### Claims about the batch processor -/

/-- C1: for every non-dry-run batch, the summary returned by
`processBatch` satisfies `success + skipped + error = total`, and `total`
is the number of selected files (each processed item increments exactly
one of the three counters). -/
theorem claim1_processBatch_summary (files : List BatchFile)
    (processor : BatchFile → Except String ProcResult) :
    (processBatch files processor false).summary.success +
        (processBatch files processor false).summary.skipped +
        (processBatch files processor false).summary.error =
      (processBatch files processor false).summary.total ∧
    (processBatch files processor false).summary.total = files.length :=
  ⟨processBatchGo_counts processor files, rfl⟩

/-- A directory listing of twelve cleaned chats, used by the dry-run
scenario. -/
def demoBatchEntries : List String :=
  ["chat10.json", "chat03.json", "chat01.json", "chat02.json",
   "chat04.json", "chat05.json", "chat06.json", "chat07.json",
   "chat08.json", "chat09.json", "chat11.json", "chat12.json"]

/-- C5: in dry-run mode `processBatch` never invokes the per-item
processor (the call trace is empty, hence no delivery-client calls or file
side effects), produces no results, and reports `total` equal to the
number of selected files with `error = 0`; for twelve files with start
index 0 and end index 4 the selected batch has five files. -/
theorem claim5_dry_run :
    (∀ (files : List BatchFile)
      (processor : BatchFile → Except String ProcResult),
      (processBatch files processor true).calls = [] ∧
      (processBatch files processor true).results = [] ∧
      (processBatch files processor true).summary.total = files.length ∧
      (processBatch files processor true).summary.error = 0) ∧
    (getBatchFiles "chats/clean" true demoBatchEntries
        ⟨some 0, some 4, some true⟩).map List.length = .ok 5 := by
  constructor
  · intro files processor
    have h := processBatchGo_dryRun processor files
    refine ⟨?_, ?_, rfl, ?_⟩ <;> simp [processBatch, h]
  · rfl

/-- C9: when the directory exists but holds no `.json` file,
`getBatchFiles` returns the empty list for every start/end option,
including out-of-range ones, instead of raising a range-validation
error. -/
theorem claim9_no_json_files (directory : String) (entries : List String)
    (options : BatchOptions)
    (h : entries.filter (fun f => strEndsWith f ".json") = []) :
    getBatchFiles directory true entries options = .ok [] := by
  simp [getBatchFiles, h, sortStrings]

/-- Witness for C9 at a directory listing with no `.json` entries and
out-of-range indices. -/
theorem claim9_witness :
    getBatchFiles "chats" true ["notes.txt", "readme.md"]
      ⟨some 99, some (-3), none⟩ = .ok [] :=
  claim9_no_json_files "chats" ["notes.txt", "readme.md"]
    ⟨some 99, some (-3), none⟩ (by decide)

/-! ### Claim about the delivery client guard -/

/-- C10: when the `messages` option is absent or empty,
`uploadMessagesToHoncho` returns `{success: false, message: "No messages
provided"}` and performs no session, peer, or network operation. -/
theorem claim10_upload_guard (messages : Option (List Message))
    (sessionId workspaceId environment : Option String)
    (generatedSessionId : String)
    (addPeersOutcome addMessagesOutcome : Except String Unit)
    (h : messages = none ∨ messages = some []) :
    uploadMessagesToHoncho messages sessionId workspaceId environment
        generatedSessionId addPeersOutcome addMessagesOutcome =
      (⟨false, "No messages provided", none, none, none⟩, []) := by
  rcases h with h | h <;> subst h <;> simp [uploadMessagesToHoncho]

/-- Witness for C10 with an empty message list. -/
theorem claim10_witness :
    uploadMessagesToHoncho (some []) none none none "session-1"
        (.ok ()) (.ok ()) =
      (⟨false, "No messages provided", none, none, none⟩, []) :=
  claim10_upload_guard (some []) none none none "session-1"
    (.ok ()) (.ok ()) (Or.inr rfl)

/-! ### Claim about the retry loop -/

/-- C4: with `maxRetries = 3` a job performs at most four upload attempts;
if every attempt fails it ends `failed` after exactly four attempts and is
not retried again; if attempt `k` is the first to succeed it ends
`completed` with `retryCount = k - 1` after exactly `k` attempts; and the
delay awaited before retry number `n` is `min(1000 * 2 ^ (n - 1), 10000)`
milliseconds. -/
theorem claim4_retry_loop (succeeds : Nat → Bool) :
    (processJob succeeds 0 3).attempts ≤ 4 ∧
    ((∀ r, r ≤ 3 → succeeds r = false) →
      (processJob succeeds 0 3).status = .failed ∧
      (processJob succeeds 0 3).attempts = 4) ∧
    (∀ k, 1 ≤ k → k ≤ 4 → (∀ j, j < k - 1 → succeeds j = false) →
      succeeds (k - 1) = true →
      (processJob succeeds 0 3).status = .completed ∧
      (processJob succeeds 0 3).retryCount = k - 1 ∧
      (processJob succeeds 0 3).attempts = k) ∧
    (∀ n, 1 ≤ n → n ≤ (processJob succeeds 0 3).delays.length →
      (processJob succeeds 0 3).delays.get? (n - 1) =
        some (min (1000 * 2 ^ (n - 1)) 10000)) := by
  by_cases h0 : succeeds 0 = true
  · have e : processJob succeeds 0 3 = ⟨.completed, 0, 1, []⟩ :=
      processJob_of_true succeeds 0 3 h0
    rw [e]
    refine ⟨by decide, ?_, ?_, ?_⟩
    · intro hall
      exact absurd h0 (by simp [hall 0 (by omega)])
    · intro k hk1 hk4 hj hk
      interval_cases k
      · exact ⟨rfl, rfl, rfl⟩
      · exact absurd (hj 0 (by omega)) (by simp [h0])
      · exact absurd (hj 0 (by omega)) (by simp [h0])
      · exact absurd (hj 0 (by omega)) (by simp [h0])
    · intro n h1 h2
      simp at h2
      omega
  · have h0f : succeeds 0 = false := by simpa using h0
    by_cases h1 : succeeds 1 = true
    · have e : processJob succeeds 0 3 = ⟨.completed, 1, 2, [1000]⟩ := by
        rw [processJob_of_retry succeeds 0 3 h0f (by omega),
          processJob_of_true succeeds 1 3 h1]
        decide
      rw [e]
      refine ⟨by decide, ?_, ?_, ?_⟩
      · intro hall
        exact absurd h1 (by simp [hall 1 (by omega)])
      · intro k hk1 hk4 hj hk
        interval_cases k
        · exact absurd hk (by simp [h0f])
        · exact ⟨rfl, rfl, rfl⟩
        · exact absurd (hj 1 (by omega)) (by simp [h1])
        · exact absurd (hj 1 (by omega)) (by simp [h1])
      · intro n hn1 hn2
        simp at hn2
        have : n = 1 := by omega
        subst this
        decide
    · have h1f : succeeds 1 = false := by simpa using h1
      by_cases h2 : succeeds 2 = true
      · have e : processJob succeeds 0 3 = ⟨.completed, 2, 3, [1000, 2000]⟩ := by
          rw [processJob_of_retry succeeds 0 3 h0f (by omega),
            processJob_of_retry succeeds 1 3 h1f (by omega),
            processJob_of_true succeeds 2 3 h2]
          decide
        rw [e]
        refine ⟨by decide, ?_, ?_, ?_⟩
        · intro hall
          exact absurd h2 (by simp [hall 2 (by omega)])
        · intro k hk1 hk4 hj hk
          interval_cases k
          · exact absurd hk (by simp [h0f])
          · exact absurd hk (by simp [h1f])
          · exact ⟨rfl, rfl, rfl⟩
          · exact absurd (hj 2 (by omega)) (by simp [h2])
        · intro n hn1 hn2
          simp at hn2
          interval_cases n <;> decide
      · have h2f : succeeds 2 = false := by simpa using h2
        by_cases h3 : succeeds 3 = true
        · have e : processJob succeeds 0 3 =
              ⟨.completed, 3, 4, [1000, 2000, 4000]⟩ := by
            rw [processJob_of_retry succeeds 0 3 h0f (by omega),
              processJob_of_retry succeeds 1 3 h1f (by omega),
              processJob_of_retry succeeds 2 3 h2f (by omega),
              processJob_of_true succeeds 3 3 h3]
            decide
          rw [e]
          refine ⟨by decide, ?_, ?_, ?_⟩
          · intro hall
            exact absurd h3 (by simp [hall 3 (by omega)])
          · intro k hk1 hk4 hj hk
            interval_cases k
            · exact absurd hk (by simp [h0f])
            · exact absurd hk (by simp [h1f])
            · exact absurd hk (by simp [h2f])
            · exact ⟨rfl, rfl, rfl⟩
          · intro n hn1 hn2
            simp at hn2
            interval_cases n <;> decide
        · have h3f : succeeds 3 = false := by simpa using h3
          have e : processJob succeeds 0 3 =
              ⟨.failed, 3, 4, [1000, 2000, 4000]⟩ := by
            rw [processJob_of_retry succeeds 0 3 h0f (by omega),
              processJob_of_retry succeeds 1 3 h1f (by omega),
              processJob_of_retry succeeds 2 3 h2f (by omega),
              processJob_of_exhausted succeeds 3 3 h3f (by omega)]
            decide
          rw [e]
          refine ⟨by decide, fun _ => ⟨rfl, rfl⟩, ?_, ?_⟩
          · intro k hk1 hk4 hj hk
            interval_cases k
            · exact absurd hk (by simp [h0f])
            · exact absurd hk (by simp [h1f])
            · exact absurd hk (by simp [h2f])
            · exact absurd hk (by simp [h3f])
          · intro n hn1 hn2
            simp at hn2
            interval_cases n <;> decide

/-- Witness for C4: delivery fails twice, then attempt 3 succeeds — the
job completes with `retryCount = 2` after three attempts. -/
theorem claim4_witness :
    (processJob (fun r => decide (r = 2)) 0 3).status = .completed ∧
    (processJob (fun r => decide (r = 2)) 0 3).retryCount = 2 ∧
    (processJob (fun r => decide (r = 2)) 0 3).attempts = 3 :=
  (claim4_retry_loop (fun r => decide (r = 2))).2.2.1 3 (by decide)
    (by decide) (by decide) (by decide)

/-! ### Claims about the Sanitizer's filtering -/

/-- A small conversation graph: one visible user message whose raw text
cleans to `"Hi there"`. -/
def demoChat : ChatJSON :=
  ⟨[⟨some ⟨some ⟨some "user"⟩, some 5, some ⟨none, some "Hi  there"⟩,
    none, none⟩⟩]⟩

/-- C7: every message the Sanitizer emits has author `"user"` or
`"assistant"`; a node with any other role yields no message. -/
theorem claim7_roles_filtered (json : Option ChatJSON) (m : Message)
    (h : m ∈ extractVisibleMessages json) :
    m.author = "user" ∨ m.author = "assistant" := by
  cases json with
  | none => simp [extractVisibleMessages] at h
  | some j =>
    simp only [extractVisibleMessages, List.mem_map] at h
    obtain ⟨t, ht, rfl⟩ := h
    rw [mem_sortByTime] at ht
    rw [List.mem_filterMap] at ht
    obtain ⟨n, _, hext⟩ := ht
    obtain ⟨msg, role, _, _, hrole, _, ha, _⟩ := nodeExtract_inv n t hext
    rw [ha]
    exact hrole

/-- Witness for C7 at a concrete conversation graph. -/
theorem claim7_witness :
    (⟨"user", "Hi there"⟩ : Message).author = "user" ∨
      (⟨"user", "Hi there"⟩ : Message).author = "assistant" :=
  claim7_roles_filtered (some demoChat) ⟨"user", "Hi there"⟩ (by decide)

/-- A conversation graph whose only node has the raw text `" "`: non-empty
before cleaning, empty after. -/
def blankChat : ChatJSON :=
  ⟨[⟨some ⟨some ⟨some "user"⟩, none, some ⟨none, some " "⟩, none, none⟩⟩]⟩

/-- Counterexample to C2: the emptiness check of extractMessages.ts line
73 runs on the raw text, before the cleanup pipeline, so a node whose text
becomes empty only after cleaning is still emitted as a message with empty
content. -/
theorem claim2_counterexample :
    extractVisibleMessages (some blankChat) = [⟨"user", ""⟩] ∧
      ∃ m ∈ extractVisibleMessages (some blankChat), m.content = "" := by
  constructor
  · decide
  · exact ⟨⟨"user", ""⟩, by decide, rfl⟩

/-- C2 (amended): a node whose *raw* extracted text is empty is dropped
entirely; every emitted message comes from a node with non-empty raw text
and carries the cleaned form of that text — which may itself be empty,
because the emptiness check precedes cleaning. -/
theorem claim2_amended_raw_nonempty (json : Option ChatJSON) (m : Message)
    (h : m ∈ extractVisibleMessages json) :
    ∃ j node msg, json = some j ∧ node ∈ j.mapping ∧
      node.message = some msg ∧ rawTextOf msg ≠ "" ∧
      m.content = cleanText (rawTextOf msg) := by
  cases json with
  | none => simp [extractVisibleMessages] at h
  | some j =>
    simp only [extractVisibleMessages, List.mem_map] at h
    obtain ⟨t, ht, rfl⟩ := h
    rw [mem_sortByTime] at ht
    rw [List.mem_filterMap] at ht
    obtain ⟨n, hn, hext⟩ := ht
    obtain ⟨msg, role, hmsg, _, _, htext, _, hc⟩ := nodeExtract_inv n t hext
    exact ⟨j, n, msg, rfl, hn, hmsg, htext, hc⟩

/-- Witness for the amended C2 at a concrete graph and message. -/
theorem claim2_amended_witness :
    ∃ j node msg, (some demoChat : Option ChatJSON) = some j ∧
      node ∈ j.mapping ∧ node.message = some msg ∧
      rawTextOf msg ≠ "" ∧
      (⟨"user", "Hi there"⟩ : Message).content =
        cleanText (rawTextOf msg) :=
  claim2_amended_raw_nonempty (some demoChat) ⟨"user", "Hi there"⟩
    (by decide)

/-! ### Claim about the conversation-array branch of the normalizer -/

theorem convResultOf_eq_none_iff (it : ArrItem) :
    convResultOf it = none ↔ convMsgs it = [] := by
  simp only [convResultOf, convMsgs]
  split
  · rename_i h
    simp only [reduceCtorEq, false_iff]
    intro he
    rw [he] at h
    simp at h
  · rename_i h
    simp only [true_iff]
    simpa using h

theorem convMap_filter :
    ∀ items : List ArrItem,
      (items.filterMap convResultOf).map ProcessedChat.messages =
        (items.map convMsgs).filter (fun ms => !ms.isEmpty) := by
  intro items
  induction items with
  | nil => rfl
  | cons x rest ih =>
    by_cases h : convMsgs x = []
    · have hn : convResultOf x = none := (convResultOf_eq_none_iff x).mpr h
      simp [hn, h, ih]
    · have hs : convResultOf x =
          some ⟨convMsgs x, (convMsgs x).length, .chatgpt,
            (extractRecordOf (convViewOf x)).title,
            (extractRecordOf (convViewOf x)).create_time⟩ := by
        simp only [convResultOf, convMsgs]
        split
        · rfl
        · rename_i hz
          exact absurd (by simpa using hz) h
      have hne : ((convMsgs x).isEmpty = false) := by
        simpa [List.isEmpty_iff] using h
      simp [hs, hne, ih]

theorem filterMap_conv_eq_nil_iff (items : List ArrItem) :
    items.filterMap convResultOf = [] ↔ ∀ it ∈ items, convMsgs it = [] := by
  rw [List.filterMap_eq_nil_iff]
  constructor
  · intro h it hit
    exact (convResultOf_eq_none_iff it).mp (h it hit)
  · intro h it hit
    exact (convResultOf_eq_none_iff it).mpr (h it hit)

/-- C3: for an array input whose first element is an object with an
object-typed `mapping` field, `processChatData` processes each element
independently through the Sanitizer; it fails with message "No messages
found in any conversations" exactly when every element yields zero
messages, and otherwise succeeds with exactly the non-empty conversations,
in order. -/
theorem claim3_conv_array (items : List ArrItem) (first : ArrItem)
    (hhead : items.head? = some first) (hconv : isConvObject first = true) :
    ((processChatData (.arrData items)).success = false ↔
      ∀ it ∈ items, convMsgs it = []) ∧
    ((processChatData (.arrData items)).success = false →
      (processChatData (.arrData items)).message =
        "No messages found in any conversations") ∧
    (∀ l, (processChatData (.arrData items)).data = some (.multiple l) →
      l.map ProcessedChat.messages =
        (items.map convMsgs).filter (fun ms => !ms.isEmpty)) ∧
    ((processChatData (.arrData items)).success = true →
      ∃ l, (processChatData (.arrData items)).data = some (.multiple l)) := by
  have hbranch : (items.head?.map isConvObject).getD false = true := by
    rw [hhead]
    simpa using hconv
  simp only [processChatData, hbranch, if_true]
  by_cases hL : (items.filterMap convResultOf).length = 0
  · have hnil : items.filterMap convResultOf = [] :=
      List.length_eq_zero.mp hL
    simp only [hL, if_pos rfl]
    refine ⟨?_, fun _ => rfl, ?_, ?_⟩
    · exact iff_of_true rfl ((filterMap_conv_eq_nil_iff items).mp hnil)
    · intro l hl
      simp at hl
    · intro h
      simp at h
  · simp only [hL, if_neg hL]
    refine ⟨?_, ?_, ?_, ?_⟩
    · constructor
      · intro h
        simp at h
      · intro hall
        exact absurd (List.length_eq_zero.mpr
          ((filterMap_conv_eq_nil_iff items).mpr hall)) hL
    · intro h
      simp at h
    · intro l hl
      have he : items.filterMap convResultOf = l := by
        simpa using hl
      rw [← he]
      exact convMap_filter items
    · intro _
      exact ⟨items.filterMap convResultOf, rfl⟩

/-- A conversation-object element whose `mapping` is `null`: it selects
the conversation branch but yields no messages. -/
def nullMappingItem : ArrItem :=
  .objItem (some none) none none none none none

/-- Witness for C3 at a one-element array whose conversation yields zero
messages: the result is the all-conversations-empty failure. -/
theorem claim3_witness :
    (processChatData (.arrData [nullMappingItem])).message =
      "No messages found in any conversations" :=
  (claim3_conv_array [nullMappingItem] nullMappingItem rfl rfl).2.1
    (by decide)

/-! ### Claim about the cleaned-file format -/

theorem jsonStringify_obj_head (d : Nat) (fields : List (String × Json)) :
    (jsonStringify d (.obj fields)).data.head? = some '\x7b' := by
  cases fields with
  | nil =>
    simp only [jsonStringify]
    decide
  | cons f fs =>
    simp only [jsonStringify]
    rw [String.data_append, String.data_append, String.data_append,
      String.data_append]
    rfl

/-- C8: on every successful clean, the written file content is the
2-space-indented `JSON.stringify` serialization of a top-level *object*
with first field `messages` and optional fields `title` and
`create_time` — its first character is `{`, never the `[` of a bare
message array. -/
theorem claim8_cleaned_file_format (parsed : ChatDataInput)
    (outputPath : String)
    (h : (cleanChatFile parsed outputPath).fst.success = true) :
    (∃ p : ProcessedChat,
      (cleanChatFile parsed outputPath).snd =
        some (jsonStringify 0 (Json.obj
          (("messages", Json.arr (p.messages.map msgJson)) ::
            (titleFields p.title ++ createTimeFields p.create_time))))) ∧
    ∀ s, (cleanChatFile parsed outputPath).snd = some s →
      s.data.head? = some '\x7b' := by
  by_cases hs : (processChatData parsed).success = false
  · simp [cleanChatFile, hs] at h
  · cases hd : (processChatData parsed).data with
    | none => simp [cleanChatFile, hs, hd] at h
    | some pd =>
      cases pd with
      | multiple l => simp [cleanChatFile, hs, hd] at h
      | single p =>
        constructor
        · exact ⟨p, by simp [cleanChatFile, hs, hd, cleanedOutputJson]⟩
        · intro s hsnd
          simp [cleanChatFile, hs, hd, cleanedOutputJson] at hsnd
          rw [← hsnd]
          exact jsonStringify_obj_head 0 _

/-- A demo export unit with title and create-time, cleaned
successfully. -/
def demoExport : ExportUnit := ⟨demoChat, some "My Chat", some 171⟩

/-- Witness for C8 at a concrete successful clean. -/
theorem claim8_witness :
    (∃ p : ProcessedChat,
      (cleanChatFile (.singleData (some demoExport)) "out.json").snd =
        some (jsonStringify 0 (Json.obj
          (("messages", Json.arr (p.messages.map msgJson)) ::
            (titleFields p.title ++ createTimeFields p.create_time))))) ∧
    ∀ s, (cleanChatFile (.singleData (some demoExport)) "out.json").snd =
        some s → s.data.head? = some '\x7b' :=
  claim8_cleaned_file_format (.singleData (some demoExport)) "out.json"
    (by decide)

/-! ### Claim about idempotence of the cleanup pipeline -/

/-- A text interleaving literal `\\n` escape sequences with a private-use
wrapper pair: removing the wrapper pair glues the surrounding backslashes
and `n` into a new `\\n` escape that only a second cleaning pass
unescapes. -/
def c6Text : String :=
  String.mk ['\\', '\\', 'n', ' ', '\\', '\uE200', 'x', '\uE200', '\\', 'n']

/-- Counterexample to C6: `c6Text` contains a literal `\\n` sequence and a
private-use wrapper pair, interleaved, yet cleaning it twice differs from
cleaning it once (the first pass produces `"\\n"`, the second erases
it). -/
theorem claim6_counterexample :
    c6Text.data.take 3 = ['\\', '\\', 'n'] ∧
    c6Text.data.count '\uE200' = 2 ∧
    cleanText c6Text = String.mk ['\\', '\\', 'n'] ∧
    cleanText (cleanText c6Text) = "" ∧
    cleanText (cleanText c6Text) ≠ cleanText c6Text := by
  refine ⟨by decide, by decide, by decide, by decide, by decide⟩

theorem mem_dropWhile (p : Char → Bool) :
    ∀ (l : List Char) (c : Char), c ∈ List.dropWhile p l → c ∈ l := by
  intro l
  induction l with
  | nil => intro c h; simpa using h
  | cons x xs ih =>
    intro c h
    by_cases hp : p x
    · simp only [List.dropWhile, hp] at h
      exact List.mem_cons_of_mem x (ih c h)
    · simp only [List.dropWhile, hp] at h
      simpa using h

theorem matchWordCI_mem :
    ∀ w l rest, matchWordCI w l = some rest → ∀ c ∈ rest, c ∈ l := by
  intro w
  induction w with
  | nil =>
    intro l rest h c hc
    simp only [matchWordCI, Option.some.injEq] at h
    exact h ▸ hc
  | cons d ds ih =>
    intro l rest h c hc
    cases l with
    | nil => simp [matchWordCI] at h
    | cons x xs =>
      simp only [matchWordCI] at h
      split at h
      · exact List.mem_cons_of_mem x (ih xs rest h c hc)
      · cases h

theorem matchDigits_mem :
    ∀ l rest, matchDigits l = some rest → ∀ c ∈ rest, c ∈ l := by
  intro l rest h c hc
  cases l with
  | nil => simp [matchDigits] at h
  | cons x xs =>
    simp only [matchDigits] at h
    split at h
    · cases h
      exact List.mem_cons_of_mem x (mem_dropWhile _ xs c hc)
    · cases h

theorem matchTurnSearch_mem :
    ∀ l rest, matchTurnSearch l = some rest → ∀ c ∈ rest, c ∈ l := by
  intro l rest h c hc
  simp only [matchTurnSearch, Option.bind_eq_some] at h
  obtain ⟨l1, h1, l2, h2, l3, h3, h4⟩ := h
  exact matchWordCI_mem _ _ _ h1 c (matchDigits_mem _ _ h2 c
    (matchWordCI_mem _ _ _ h3 c (matchDigits_mem _ _ h4 c hc)))

theorem matchCitationAt_mem :
    ∀ l rest, matchCitationAt l = some rest → ∀ c ∈ rest, c ∈ l := by
  intro l rest h c hc
  simp only [matchCitationAt] at h
  split at h
  · rename_i l1 h1
    split at h
    · rename_i r hr
      cases h
      exact matchWordCI_mem _ _ _ h1 c (matchTurnSearch_mem _ _ hr c hc)
    · exact matchTurnSearch_mem _ _ h c hc
  · exact matchTurnSearch_mem _ _ h c hc

theorem mem_stripCitations :
    ∀ l (c : Char), c ∈ stripCitations l → c ∈ l := by
  have main : ∀ n l, l.length ≤ n → ∀ c : Char,
      c ∈ stripCitations l → c ∈ l := by
    intro n
    induction n with
    | zero =>
      intro l hl c hc
      cases l with
      | nil => simpa [stripCitations_nil] using hc
      | cons x xs => simp at hl
    | succ m ih =>
      intro l hl c hc
      cases l with
      | nil => simpa [stripCitations_nil] using hc
      | cons x xs =>
        rw [stripCitations_cons] at hc
        cases hm : matchCitationAt (x :: xs) with
        | some rest2 =>
          rw [hm] at hc
          have hlt := matchCitationAt_length_lt (x :: xs) rest2 hm
          have : c ∈ rest2 := ih rest2 (by simp at hlt hl ⊢; omega) c hc
          exact matchCitationAt_mem _ _ hm c this
        | none =>
          rw [hm] at hc
          rcases List.mem_cons.mp hc with h | h
          · simp [h]
          · exact List.mem_cons_of_mem x
              (ih xs (by simpa using hl) c h)
  intro l c hc
  exact main l.length l (Nat.le_refl _) c hc

theorem collapseSpaces_nil : collapseSpaces [] = [] := rfl

theorem collapseSpaces_two (rest : List Char) :
    collapseSpaces (' ' :: ' ' :: rest) = collapseSpaces (' ' :: rest) :=
  rfl

theorem collapseSpaces_single (c : Char) :
    collapseSpaces [c] = [c] := by
  simp only [collapseSpaces]

theorem collapseSpaces_cons_cons (c y : Char) (ys : List Char)
    (h : ¬(c = ' ' ∧ y = ' ')) :
    collapseSpaces (c :: y :: ys) = c :: collapseSpaces (y :: ys) := by
  simp only [collapseSpaces]
  split
  · rename_i c2 rest2 tail2 heq2
    injection heq2 with hy hys
    exact absurd ⟨rfl, hy⟩ h
  · rfl

theorem mem_collapseSpaces :
    ∀ (l : List Char) (c : Char), c ∈ collapseSpaces l → c ∈ l := by
  intro l
  induction l with
  | nil => intro c hc; simpa [collapseSpaces_nil] using hc
  | cons x xs ih =>
    intro c hc
    cases xs with
    | nil =>
      rw [collapseSpaces_single] at hc
      exact hc
    | cons y ys =>
      by_cases hsp : x = ' ' ∧ y = ' '
      · obtain ⟨hx, hy⟩ := hsp
        subst hx
        subst hy
        rw [collapseSpaces_two] at hc
        exact List.mem_cons_of_mem _ (ih c hc)
      · rw [collapseSpaces_cons_cons x y ys hsp] at hc
        rcases List.mem_cons.mp hc with h | h
        · simp [h]
        · exact List.mem_cons_of_mem _ (ih c h)

theorem mem_trimEnd : ∀ l (c : Char), c ∈ trimEnd l → c ∈ l := by
  intro l
  induction l with
  | nil => intro c hc; simpa [trimEnd] using hc
  | cons x xs ih =>
    intro c hc
    simp only [trimEnd] at hc
    split at hc
    · split at hc
      · simp at hc
      · rcases List.mem_cons.mp hc with h | h
        · simp [h]
        · simp at h
    · rcases List.mem_cons.mp hc with h | h
      · simp [h]
      · exact List.mem_cons_of_mem x (ih c h)

theorem mem_jsTrim : ∀ l (c : Char), c ∈ jsTrim l → c ∈ l := by
  intro l c hc
  exact mem_dropWhile _ l c (mem_trimEnd _ c hc)

theorem stripPUA_no_pua (l : List Char) (c : Char) (h : c ∈ stripPUA l) :
    isPUA c = false := by
  simp only [stripPUA, List.mem_filter] at h
  simpa using h.2

/-- No private-use code point survives the cleanup pipeline: the third
stage removes them all and the later stages only drop characters. -/
theorem cleanChars_no_pua (l : List Char) (c : Char)
    (h : c ∈ cleanChars l) : isPUA c = false := by
  unfold cleanChars at h
  exact stripPUA_no_pua _ c
    (mem_stripCitations _ c (mem_collapseSpaces _ c (mem_jsTrim _ c h)))

theorem isWrapper_isPUA (c : Char) (h : isWrapper c = true) :
    isPUA c = true := by
  simp only [isWrapper, Bool.and_eq_true, decide_eq_true_eq] at h
  simp only [isPUA, Bool.and_eq_true, decide_eq_true_eq]
  omega

/-- A list without wrapper glyphs passes the wrapper-removal stage
unchanged. -/
theorem stripWrappers_eq_self (l : List Char)
    (h : ∀ c ∈ l, isWrapper c = false) : stripWrappers l = l := by
  induction l with
  | nil => exact stripWrappers_nil
  | cons x xs ih =>
    rw [stripWrappers_cons]
    have hx : isWrapper x = false := h x (by simp)
    rw [hx]
    simp only [Bool.false_eq_true, if_false, List.cons.injEq, true_and]
    exact ih (fun c hc => h c (List.mem_cons_of_mem x hc))

/-- A list without private-use code points passes the private-use removal
unchanged. -/
theorem stripPUA_eq_self (l : List Char)
    (h : ∀ c ∈ l, isPUA c = false) : stripPUA l = l := by
  unfold stripPUA
  rw [List.filter_eq_self]
  intro c hc
  simp [h c hc]

/-- No two adjacent ASCII spaces. -/
def noDoubleSpace : List Char → Bool
  | [] => true
  | c :: rest =>
    match c, rest with
    | ' ', ' ' :: _ => false
    | _, _ => noDoubleSpace rest

theorem noDoubleSpace_nil : noDoubleSpace [] = true := rfl

theorem noDoubleSpace_single (c : Char) : noDoubleSpace [c] = true := by
  simp only [noDoubleSpace]

theorem noDoubleSpace_two (rest : List Char) :
    noDoubleSpace (' ' :: ' ' :: rest) = false := rfl

theorem noDoubleSpace_cons_cons (c y : Char) (ys : List Char)
    (h : ¬(c = ' ' ∧ y = ' ')) :
    noDoubleSpace (c :: y :: ys) = noDoubleSpace (y :: ys) := by
  simp only [noDoubleSpace]
  split
  · rename_i c2 rest2 tail2 heq2
    injection heq2 with hy hys
    exact absurd ⟨rfl, hy⟩ h
  · rfl

theorem noDoubleSpace_tail (c : Char) (l : List Char)
    (h : noDoubleSpace (c :: l) = true) : noDoubleSpace l = true := by
  cases l with
  | nil => rfl
  | cons y ys =>
    by_cases hsp : c = ' ' ∧ y = ' '
    · obtain ⟨hc, hy⟩ := hsp
      subst hc
      subst hy
      rw [noDoubleSpace_two] at h
      cases h
    · rwa [noDoubleSpace_cons_cons c y ys hsp] at h

theorem collapseSpaces_head? :
    ∀ l : List Char, (collapseSpaces l).head? = l.head? := by
  intro l
  induction l with
  | nil => rfl
  | cons x xs ih =>
    cases xs with
    | nil => rw [collapseSpaces_single]
    | cons y ys =>
      by_cases hsp : x = ' ' ∧ y = ' '
      · obtain ⟨hx, hy⟩ := hsp
        subst hx
        subst hy
        rw [collapseSpaces_two, ih]
        rfl
      · rw [collapseSpaces_cons_cons x y ys hsp]
        rfl

/-- The collapse stage leaves no two adjacent spaces. -/
theorem noDoubleSpace_collapseSpaces :
    ∀ l : List Char, noDoubleSpace (collapseSpaces l) = true := by
  intro l
  induction l with
  | nil => rfl
  | cons x xs ih =>
    cases xs with
    | nil => rw [collapseSpaces_single]; exact noDoubleSpace_single x
    | cons y ys =>
      by_cases hsp : x = ' ' ∧ y = ' '
      · obtain ⟨hx, hy⟩ := hsp
        subst hx
        subst hy
        rw [collapseSpaces_two]
        exact ih
      · rw [collapseSpaces_cons_cons x y ys hsp]
        cases hcol : collapseSpaces (y :: ys) with
        | nil => exact noDoubleSpace_single x
        | cons r rs =>
          have hr : r = y := by
            have := collapseSpaces_head? (y :: ys)
            rw [hcol] at this
            simpa using this
          rw [noDoubleSpace_cons_cons x r rs]
          · rw [← hcol]
            exact ih
          · intro hcon
            exact hsp ⟨hcon.1, hr ▸ hcon.2⟩

/-- A list with no two adjacent spaces passes the collapse stage
unchanged. -/
theorem collapseSpaces_eq_self :
    ∀ l : List Char, noDoubleSpace l = true → collapseSpaces l = l := by
  intro l
  induction l with
  | nil => intro _; rfl
  | cons x xs ih =>
    intro h
    cases xs with
    | nil => exact collapseSpaces_single x
    | cons y ys =>
      by_cases hsp : x = ' ' ∧ y = ' '
      · obtain ⟨hx, hy⟩ := hsp
        subst hx
        subst hy
        rw [noDoubleSpace_two] at h
        cases h
      · rw [collapseSpaces_cons_cons x y ys hsp]
        rw [ih (noDoubleSpace_tail x _ h)]

theorem noDoubleSpace_dropWhile (p : Char → Bool) :
    ∀ l : List Char, noDoubleSpace l = true →
      noDoubleSpace (List.dropWhile p l) = true := by
  intro l
  induction l with
  | nil => intro _; rfl
  | cons x xs ih =>
    intro h
    by_cases hp : p x
    · simp only [List.dropWhile, hp]
      exact ih (noDoubleSpace_tail x xs h)
    · simp only [List.dropWhile, hp]
      exact h

theorem trimEnd_head? :
    ∀ l : List Char, trimEnd l = [] ∨ (trimEnd l).head? = l.head? := by
  intro l
  cases l with
  | nil => exact Or.inl rfl
  | cons x xs =>
    simp only [trimEnd]
    cases htr : trimEnd xs with
    | nil =>
      by_cases hw : isJsWhitespace x
      · simp [hw]
      · simp [hw, List.head?]
    | cons r rs => simp [List.head?]

theorem noDoubleSpace_trimEnd :
    ∀ l : List Char, noDoubleSpace l = true →
      noDoubleSpace (trimEnd l) = true := by
  intro l
  induction l with
  | nil => intro _; rfl
  | cons x xs ih =>
    intro h
    simp only [trimEnd]
    cases htr : trimEnd xs with
    | nil =>
      by_cases hw : isJsWhitespace x
      · simp only [hw, if_true]
        rfl
      · simp only [hw, Bool.false_eq_true, if_false]
        exact noDoubleSpace_single x
    | cons r rs =>
      have hx : noDoubleSpace (trimEnd xs) = true :=
        ih (noDoubleSpace_tail x xs h)
      rw [htr] at hx
      rw [noDoubleSpace_cons_cons x r rs]
      · exact hx
      · intro hcon
        obtain ⟨hxsp, hrsp⟩ := hcon
        subst hxsp
        rcases trimEnd_head? xs with hnil | hh
        · rw [htr] at hnil
          cases hnil
        · rw [htr] at hh
          cases xs with
          | nil => simp [trimEnd] at htr
          | cons z zs =>
            simp only [List.head?, Option.some.injEq] at hh
            rw [hrsp] at hh
            rw [← hh] at h
            rw [noDoubleSpace_two] at h
            cases h

theorem head?_dropWhile_false (p : Char → Bool) :
    ∀ l : List Char, ∀ c, (List.dropWhile p l).head? = some c →
      p c = false := by
  intro l
  induction l with
  | nil => intro c h; simp at h
  | cons x xs ih =>
    intro c h
    by_cases hp : p x
    · simp only [List.dropWhile, hp] at h
      exact ih c h
    · simp only [List.dropWhile, hp, List.head?, Option.some.injEq] at h
      subst h
      simpa using hp

theorem dropWhile_eq_self_of_head (p : Char → Bool) (l : List Char)
    (h : ∀ c, l.head? = some c → p c = false) :
    List.dropWhile p l = l := by
  cases l with
  | nil => rfl
  | cons x xs =>
    have := h x rfl
    simp [List.dropWhile, this]

theorem trimEnd_idem : ∀ l : List Char, trimEnd (trimEnd l) = trimEnd l := by
  intro l
  induction l with
  | nil => rfl
  | cons x xs ih =>
    have hcons : ∀ (c : Char) (cs : List Char), trimEnd (c :: cs) =
        match trimEnd cs with
        | [] => if isJsWhitespace c then [] else [c]
        | r => c :: r := fun _ _ => rfl
    cases htr : trimEnd xs with
    | nil =>
      have hx : trimEnd (x :: xs) =
          if isJsWhitespace x then [] else [x] := by
        rw [hcons, htr]
      by_cases hw : isJsWhitespace x
      · rw [hx]
        simp only [hw, if_true]
        rfl
      · rw [hx]
        simp only [hw, Bool.false_eq_true, if_false]
        rw [hcons]
        simp [trimEnd, hw]
    | cons r rs =>
      rw [htr] at ih
      have hx : trimEnd (x :: xs) = x :: r :: rs := by
        rw [hcons, htr]
      rw [hx, hcons, ih]

theorem jsTrim_idem : ∀ l : List Char, jsTrim (jsTrim l) = jsTrim l := by
  intro l
  unfold jsTrim
  rw [dropWhile_eq_self_of_head, trimEnd_idem]
  intro c hc
  rcases trimEnd_head? (List.dropWhile isJsWhitespace l) with hnil | hh
  · rw [hnil] at hc
    simp at hc
  · rw [hh] at hc
    exact head?_dropWhile_false isJsWhitespace l c hc

/-- Idempotence of the cleanup pipeline on any text whose cleaned form is
a fixed point of the unescape and citation-removal stages: the wrapper and
private-use stages are always no-ops on cleaned text (no private-use code
point survives a pass), and the space-collapse and trim stages are
idempotent. -/
theorem cleanChars_idem_of_fixed (l : List Char)
    (h1 : unescapeBackslashN (cleanChars l) = cleanChars l)
    (h2 : stripCitations (cleanChars l) = cleanChars l) :
    cleanChars (cleanChars l) = cleanChars l := by
  have hnp : ∀ c ∈ cleanChars l, isPUA c = false := cleanChars_no_pua l
  have hnw : ∀ c ∈ cleanChars l, isWrapper c = false := by
    intro c hc
    cases hw : isWrapper c with
    | false => rfl
    | true => exact absurd (isWrapper_isPUA c hw) (by simp [hnp c hc])
  have hwrap : stripWrappers (cleanChars l) = cleanChars l :=
    stripWrappers_eq_self _ hnw
  have hpua : stripPUA (cleanChars l) = cleanChars l :=
    stripPUA_eq_self _ hnp
  have hnd : noDoubleSpace (cleanChars l) = true := by
    unfold cleanChars jsTrim
    exact noDoubleSpace_trimEnd _
      (noDoubleSpace_dropWhile _ _ (noDoubleSpace_collapseSpaces _))
  have hcol : collapseSpaces (cleanChars l) = cleanChars l :=
    collapseSpaces_eq_self _ hnd
  have htrim : jsTrim (cleanChars l) = cleanChars l := by
    show jsTrim (jsTrim (collapseSpaces (stripCitations (stripPUA
      (stripWrappers (unescapeBackslashN l)))))) = cleanChars l
    rw [jsTrim_idem]
    rfl
  show jsTrim (collapseSpaces (stripCitations (stripPUA (stripWrappers
    (unescapeBackslashN (cleanChars l)))))) = cleanChars l
  rw [h1, hwrap, hpua, h2, hcol]
  exact htrim

/-- C6 (amended): cleaning is *not* idempotent in general — removing a
private-use wrapper pair (or a citation marker) can splice the surrounding
characters into a new literal `\\n` escape or a new citation marker that
only a second pass removes (see the counterexample).  Cleaning is
idempotent on every text whose cleaned form contains no such residual
token, i.e. whose cleaned form is a fixed point of the unescape and
citation-removal stages. -/
theorem claim6_amended_idempotent (x : String)
    (h1 : unescapeBackslashN (cleanText x).data = (cleanText x).data)
    (h2 : stripCitations (cleanText x).data = (cleanText x).data) :
    cleanText (cleanText x) = cleanText x := by
  have h1' : unescapeBackslashN (cleanChars x.data) = cleanChars x.data := h1
  have h2' : stripCitations (cleanChars x.data) = cleanChars x.data := h2
  show String.mk (cleanChars (String.mk (cleanChars x.data)).data) =
    String.mk (cleanChars x.data)
  exact congrArg String.mk (cleanChars_idem_of_fixed x.data h1' h2')

set_option maxHeartbeats 1000000 in
/-- Witness for the amended C6 at a concrete fixed-point text. -/
theorem claim6_witness :
    cleanText (cleanText "hello world") = cleanText "hello world" :=
  claim6_amended_idempotent "hello world" (by decide) (by decide)

end TeachHoncho
